import Mathlib

/-!
Shallow embedding of the RSA core of `src/app.py` (functions `is_prime`,
`generate_prime`, `gcd`, `mod_inverse`, `generate_keypair`, `encrypt`,
`decrypt`), together with proofs of the specification claims about it.

Modelling conventions:
* Python arbitrary-precision non-negative integers are `Nat`; the signed
  intermediate Bezout coefficients inside `mod_inverse` are `Int`.
* Python's random source (`random.getrandbits`, `random.randint`) is an
  explicit tape `g : Nat → Nat` together with a running index; a draw at
  index `i` reads `g i` and advances the index.  `getrandbits bits` is
  `g i % 2 ^ bits`; `randint lo hi` is `lo + g i % (hi - lo + 1)`.
* Unbounded `while` loops take an explicit fuel argument and return
  `Option`; `none` is the modelling artefact "fuel exhausted" (or, where
  noted, an actual Python exception such as `ZeroDivisionError` or
  `ValueError`).
* Python's three-argument `pow` is `powMod`, binary modular
  exponentiation with a structural fuel (the fuel `e + 1` always
  suffices, see `powMod_eq`).
* A Python `str` is a `List Nat` of character code points, each
  `< 1114112`; `ord` is the identity on code points and `chr` is
  `pyChr`, which fails (Python `ValueError`) at `1114112` and above.
-/

set_option maxRecDepth 8000

namespace App

/-- Binary modular exponentiation with structural fuel; models Python's
three-argument `pow(b, e, n)`. -/
def powModF : Nat → Nat → Nat → Nat → Nat
  | 0, _, _, n => 1 % n
  | fuel + 1, b, e, n =>
    if e = 0 then 1 % n
    else
      let r := powModF fuel ((b * b) % n) (e / 2) n
      if e % 2 = 1 then (r * (b % n)) % n else r

/-- Python `pow(b, e, n)`: fuel `e + 1` always suffices. -/
def powMod (b e n : Nat) : Nat := powModF (e + 1) b e n

/-- The decomposition loop of `is_prime`: writes its argument as
`2 ^ s * d` with `d` odd, returning `(s, d)`.  Models
`while d % 2 == 0: s += 1; d //= 2` with structural fuel (fuel `d`
suffices for `d ≥ 1`). -/
def split2 : Nat → Nat → Nat × Nat
  | 0, d => (0, d)
  | fuel + 1, d =>
    if d % 2 = 0 then
      let p := split2 fuel (d / 2)
      (p.1 + 1, p.2)
    else (0, d)

/-- The inner squaring loop of `is_prime`:
`for _ in range(s-1): x = pow(x, 2, n); if x == n - 1: break` —
returns `true` iff the loop broke out at `n - 1` (the `for`/`else`
in the Python source returns `False` exactly when this yields `false`). -/
def squareLoop (n : Nat) : Nat → Nat → Bool
  | 0, _ => false
  | j + 1, x =>
    let x2 := powMod x 2 n
    if x2 = n - 1 then true else squareLoop n j x2

/-- The witness loop of `is_prime`: `k` rounds, each drawing
`a = random.randint(2, n - 2)` from the tape. Returns the verdict and the
next unread tape index. -/
def isPrimeLoop (n d s : Nat) (g : Nat → Nat) : Nat → Nat → Bool × Nat
  | 0, i => (true, i)
  | k + 1, i =>
    let a := 2 + g i % (n - 3)
    let x := powMod a d n
    if x = 1 ∨ x = n - 1 then isPrimeLoop n d s g k (i + 1)
    else if squareLoop n (s - 1) x then isPrimeLoop n d s g k (i + 1)
    else (false, i + 1)

/-- `is_prime(n, k)` from `src/app.py` (Miller-Rabin), over the random
tape `g` starting at index `i`.  Returns the verdict together with the
next unread tape index. -/
def is_prime (n k : Nat) (g : Nat → Nat) (i : Nat) : Bool × Nat :=
  if n ≤ 1 ∨ n = 4 then (false, i)
  else if n ≤ 3 then (true, i)
  else if n % 2 = 0 then (false, i)
  else
    let sd := split2 (n - 1) (n - 1)
    isPrimeLoop n sd.2 sd.1 g k i

/-- `generate_prime(bits)` from `src/app.py`: draw
`p = random.getrandbits(bits)`, force `p |= (1 << bits - 1) | 1`, test
with `is_prime(p)` (default rounds 5), retry on failure.  The unbounded
retry loop carries fuel; `none` means fuel ran out. -/
def generate_prime (g : Nat → Nat) (bits : Nat) : Nat → Nat → Option (Nat × Nat)
  | 0, _ => none
  | fuel + 1, i =>
    let p := (g i % 2 ^ bits) ||| ((1 <<< (bits - 1)) ||| 1)
    let r := is_prime p 5 g (i + 1)
    if r.1 then some (p, r.2) else generate_prime g bits fuel r.2

/-- The Euclidean loop of `gcd` with structural fuel (fuel `b + 1`
suffices, see `gcd_eq`). -/
def gcdLoop : Nat → Nat → Nat → Nat
  | 0, a, _ => a
  | fuel + 1, a, b => if b = 0 then a else gcdLoop fuel b (a % b)

/-- `gcd(a, b)` from `src/app.py`: `while b: a, b = b, a % b; return a`. -/
def gcd (a b : Nat) : Nat := gcdLoop (b + 1) a b

/-- The `while a > 1` loop of `mod_inverse`, in the source's variable
order: `q = a // m; a, m = m, a % m; x, y = y, x - q * y`.  `none` models
either the `ZeroDivisionError` raised by `a // m` when `m == 0` (which
happens exactly when `gcd(a, m) > 1`) or fuel exhaustion (never reached
with fuel `m + 2`, see `modInvLoop_total`). -/
def modInvLoop : Nat → Nat → Nat → Int → Int → Option Int
  | 0, _, _, _, _ => none
  | fuel + 1, a, m, x, y =>
    if a ≤ 1 then some x
    else if m = 0 then none
    else modInvLoop fuel m (a % m) y (x - (↑(a / m) : Int) * y)

/-- `mod_inverse(a, m)` from `src/app.py`: extended Euclidean algorithm;
`m == 1` short-circuits to `0`; a negative raw coefficient is normalised
by adding the original modulus once. -/
def mod_inverse (a m : Nat) : Option Int :=
  if m = 1 then some 0
  else (modInvLoop (m + 2) a m 1 0).map fun x => if x < 0 then x + (m : Int) else x

/-- The `while p == q: q = generate_prime(bits // 2)` retry loop of
`generate_keypair`, fused with the initial generation of `q`. -/
def qLoop (g : Nat → Nat) (pfuel bits p : Nat) : Nat → Nat → Option (Nat × Nat)
  | 0, _ => none
  | fuel + 1, i =>
    match generate_prime g bits pfuel i with
    | none => none
    | some (q, j) => if q = p then qLoop g pfuel bits p fuel j else some (q, j)

/-- The public-exponent selection of `generate_keypair`: start from
`e = 65537`, and `while gcd(e, phi) != 1: e = random.randint(2, phi - 1)`. -/
def eLoop (g : Nat → Nat) (phi : Nat) : Nat → Nat → Nat → Option (Nat × Nat)
  | 0, e, i => if gcd e phi = 1 then some (e, i) else none
  | fuel + 1, e, i =>
    if gcd e phi = 1 then some (e, i)
    else eLoop g phi fuel (2 + g i % (phi - 2)) (i + 1)

/-- `generate_keypair(bits)` from `src/app.py`, exposing the internal
values: returns `(p, q, e, d)` on success (with `n = p * q` and
`phi = (p - 1) * (q - 1)` recomputable from `p, q`).  The `st.*`
progress-narration calls in the source do not affect any returned
value and are not part of the returned data. -/
def generateKeypairFull (bits fuel : Nat) (g : Nat → Nat) : Option (Nat × Nat × Nat × Int) :=
  match generate_prime g (bits / 2) fuel 0 with
  | none => none
  | some (p, i1) =>
    match qLoop g fuel (bits / 2) p fuel i1 with
    | none => none
    | some (q, i2) =>
      let phi := (p - 1) * (q - 1)
      match eLoop g phi fuel 65537 i2 with
      | none => none
      | some (e, _) =>
        match mod_inverse e phi with
        | none => none
        | some d => some (p, q, e, d)

/-- `generate_keypair(bits)`: the value actually returned to the caller,
`((n, e), (n, d))`. -/
def generate_keypair (bits fuel : Nat) (g : Nat → Nat) :
    Option ((Nat × Nat) × (Nat × Int)) :=
  (generateKeypairFull bits fuel g).map fun r =>
    ((r.1 * r.2.1, r.2.2.1), (r.1 * r.2.1, r.2.2.2))

/-- UI effects observable from the cipher layer (the `st.error` call in
`encrypt`; `decrypt` contains no UI calls). -/
inductive UIEvent : Type
  | errorCharTooLarge (code modulus : Nat) : UIEvent
deriving DecidableEq

/-- The character loop of `encrypt`: first character whose code point
reaches the modulus aborts the whole call (the source's
`return []` inside the loop); otherwise each code point `c` contributes
`pow(c, e, n)` in order. -/
def encryptCore (n e : Nat) : List Nat → Except (Nat × Nat) (List Nat)
  | [] => .ok []
  | c :: rest =>
    if n ≤ c then .error (c, n)
    else
      match encryptCore n e rest with
      | .ok l => .ok (powMod c e n :: l)
      | .error err => .error err

/-- `encrypt(public_key, plaintext)` from `src/app.py`: the returned
value — the ciphertext list on success, `[]` on the character-too-large
failure. -/
def encrypt (key : Nat × Nat) (pt : List Nat) : List Nat :=
  match encryptCore key.1 key.2 pt with
  | .ok l => l
  | .error _ => []

/-- The UI effect trace of `encrypt`: empty on success, exactly one
`st.error` (carrying the offending code point and the modulus) on
failure. -/
def encryptEvents (key : Nat × Nat) (pt : List Nat) : List UIEvent :=
  match encryptCore key.1 key.2 pt with
  | .ok _ => []
  | .error err => [UIEvent.errorCharTooLarge err.1 err.2]

/-- The UI effect trace of `decrypt`: the source's `decrypt` body
contains no `st.*` call at all, so its trace is empty by construction. -/
def decryptEvents (_key : Nat × Nat) (_ct : List Nat) : List UIEvent := []

/-- Python `chr`: defined on code points `0 ≤ x < 1114112`, raises
`ValueError` (modelled as `none`) beyond. -/
def pyChr (x : Nat) : Option Nat :=
  if x < 1114112 then some x else none

/-- One step of `decrypt`: `chr(pow(c, d, n))`.  `none` models the
`ValueError` raised by `pow` when `n == 0` or by `chr` when the residue
is not a valid code point. -/
def decryptChar (n d c : Nat) : Option Nat :=
  if n = 0 then none else pyChr (powMod c d n)

/-- `decrypt(private_key, ciphertext)` from `src/app.py`: per-element
`chr(pow(c, d, n))`, joined in order; `none` models a raised
`ValueError`, which aborts the whole call. -/
def decrypt (key : Nat × Nat) : List Nat → Option (List Nat)
  | [] => some []
  | c :: rest =>
    (decryptChar key.1 key.2 c).bind fun ch =>
      (decrypt key rest).map fun l => ch :: l

/-- A concrete random tape on which `generate_keypair 6` draws the primes
`p = 5` (index 0) and `q = 7` (index 6); all Miller-Rabin witnesses come
out as `a = 2`. -/
def tapeSmall : Nat → Nat := fun i => if i = 0 then 5 else if i = 6 then 7 else 0

/-- A concrete random tape on which `generate_keypair 22` draws the
candidate `p = 2047 = 23 * 89` (index 0) — a strong pseudoprime to base 2,
so all five Miller-Rabin rounds with witness `a = 2` pass and the
composite is accepted — and the genuine prime `q = 1039` (index 6). -/
def tapeBad : Nat → Nat := fun i => if i = 0 then 2047 else if i = 6 then 1039 else 0

/-! ## Correctness of the arithmetic primitives -/

theorem powModF_eq : ∀ (fuel b e n : Nat), e < fuel → powModF fuel b e n = b ^ e % n := by
  intro fuel
  induction fuel with
  | zero => intro b e n h; omega
  | succ f ih =>
    intro b e n h
    by_cases h0 : e = 0
    · subst h0; simp [powModF]
    · have h2 : e / 2 < f := by omega
      have hrec := ih ((b * b) % n) (e / 2) n h2
      have hbb : ((b * b) % n) ^ (e / 2) % n = b ^ (e / 2 + e / 2) % n := by
        rw [← Nat.pow_mod, pow_add, mul_pow]
      by_cases hodd : e % 2 = 1
      · have he : e = e / 2 + e / 2 + 1 := by omega
        simp only [powModF, h0, if_false, hodd, if_true]
        rw [hrec, hbb, ← Nat.mul_mod, ← pow_succ, ← he]
      · have he : e = e / 2 + e / 2 := by omega
        simp only [powModF, h0, if_false, hodd, if_false]
        rw [hrec, hbb, ← he]

theorem powMod_eq (b e n : Nat) : powMod b e n = b ^ e % n :=
  powModF_eq _ _ _ _ (by omega)

theorem gcdLoop_eq : ∀ (fuel a b : Nat), b < fuel → gcdLoop fuel a b = Nat.gcd a b := by
  intro fuel
  induction fuel with
  | zero => intro a b h; omega
  | succ f ih =>
    intro a b h
    by_cases hb : b = 0
    · subst hb; simp [gcdLoop]
    · have hlt : a % b < f := by
        have := Nat.mod_lt a (Nat.pos_of_ne_zero hb)
        omega
      simp only [gcdLoop, hb, if_false]
      rw [ih b (a % b) hlt, Nat.gcd_comm b (a % b), ← Nat.gcd_rec]
      exact Nat.gcd_comm b a

theorem gcd_eq (a b : Nat) : gcd a b = Nat.gcd a b :=
  gcdLoop_eq _ _ _ (by omega)

/-! ## Correctness of `mod_inverse` (extended Euclidean algorithm) -/

theorem abs_sub_mul_of_opp (x y q : Int) (h : x * y ≤ 0) (hq : 0 ≤ q) :
    |x - q * y| = |x| + q * |y| := by
  rcases mul_nonpos_iff.mp h with ⟨hx, hy⟩ | ⟨hx, hy⟩
  · have hqy : q * y ≤ 0 := mul_nonpos_of_nonneg_of_nonpos hq hy
    rw [abs_of_nonneg hx, abs_of_nonpos hy, abs_of_nonneg (by linarith)]
    ring
  · have hqy : 0 ≤ q * y := mul_nonneg hq hy
    rw [abs_of_nonpos hx, abs_of_nonneg hy, abs_of_nonpos (by linarith)]
    ring

/-- Loop invariant for `modInvLoop`, relative to the original inputs
`A` (first argument) and `M` (original modulus): `x` and `y` track the
Bezout coefficients of the current remainders `a` and `m`, they carry
opposite signs, and `a * |y| + m * |x| = M` exactly.  Any `some` result
is therefore a modular inverse of `A` with absolute value below `M`. -/
theorem modInvLoop_spec :
    ∀ (fuel : Nat) (a m : Nat) (x y r : Int) (A M : Nat),
      2 ≤ M → 1 ≤ a →
      (A : Int) * x ≡ (a : Int) [ZMOD (M : Int)] →
      (A : Int) * y ≡ (m : Int) [ZMOD (M : Int)] →
      (a : Int) * |y| + (m : Int) * |x| = (M : Int) →
      x * y ≤ 0 →
      (m = 0 → 2 * |x| ≤ (M : Int)) →
      modInvLoop fuel a m x y = some r →
      (A : Int) * r ≡ 1 [ZMOD (M : Int)] ∧ |r| < (M : Int) := by
  intro fuel
  induction fuel with
  | zero => intro a m x y r A M _ _ _ _ _ _ _ hr; simp [modInvLoop] at hr
  | succ f ih =>
    intro a m x y r A M hM ha h1 h2 h3 h4 h5 hr
    simp only [modInvLoop] at hr
    by_cases ha1 : a ≤ 1
    · have haa : a = 1 := by omega
      rw [if_pos ha1] at hr
      obtain rfl : x = r := by exact Option.some.inj hr
      subst haa
      refine ⟨by simpa using h1, ?_⟩
      by_cases hm : m = 0
      · have := h5 hm
        by_contra hcon
        push_neg at hcon
        linarith
      · have hm1 : (1 : Int) ≤ (m : Int) := by exact_mod_cast Nat.one_le_iff_ne_zero.mpr hm
        by_contra hcon
        push_neg at hcon
        have h3' : |y| + (m : Int) * |x| = (M : Int) := by
          simpa using h3
        have hmx : (M : Int) ≤ (m : Int) * |x| := by nlinarith [abs_nonneg x]
        have hyle : |y| ≤ 0 := by linarith
        have hy : y = 0 := abs_eq_zero.mp (le_antisymm hyle (abs_nonneg y))
        subst hy
        have hdvd : (M : Int) ∣ (m : Int) := by
          have h2' : (0 : Int) ≡ (m : Int) [ZMOD (M : Int)] := by simpa using h2
          simpa using (Int.modEq_zero_iff_dvd.mp h2'.symm)
        have hMm : (M : Int) ≤ (m : Int) := Int.le_of_dvd (by linarith) hdvd
        have hprod : (M : Int) * (M : Int) ≤ (m : Int) * |x| :=
          mul_le_mul hMm hcon (by linarith) (by linarith)
        simp only [abs_zero, mul_zero, zero_add] at h3'
        nlinarith
    · rw [if_neg ha1] at hr
      by_cases hm0 : m = 0
      · rw [if_pos hm0] at hr; simp at hr
      · rw [if_neg hm0] at hr
        have ha2 : (2 : Int) ≤ (a : Int) := by exact_mod_cast by omega
        have hq0 : (0 : Int) ≤ (↑(a / m) : Int) := by positivity
        have hdm : ((m : Int)) * ↑(a / m) + ↑(a % m) = (a : Int) := by
          exact_mod_cast Nat.div_add_mod a m
        refine ih m (a % m) y (x - ↑(a / m) * y) r A M hM (by omega) h2 ?_ ?_ ?_ ?_ hr
        · have hrw : ((a % m : Nat) : Int) = (a : Int) - ↑(a / m) * (m : Int) := by linarith
          rw [hrw, show (A : Int) * (x - ↑(a / m) * y)
              = (A : Int) * x - ↑(a / m) * ((A : Int) * y) from by ring]
          exact h1.sub (h2.mul_left _)
        · rw [abs_sub_mul_of_opp x y _ h4 hq0]
          have hrw : ((a % m : Nat) : Int) = (a : Int) - ↑(a / m) * (m : Int) := by linarith
          rw [hrw]
          ring_nf
          ring_nf at h3
          linarith
        · have hexp : y * (x - ↑(a / m) * y) = x * y - ↑(a / m) * (y * y) := by ring
          rw [hexp]
          have := mul_nonneg hq0 (mul_self_nonneg y)
          linarith
        · intro hzero
          have hz : ((a % m : Nat) : Int) = 0 := by exact_mod_cast hzero
          have hmx : (0 : Int) ≤ (m : Int) * |x| :=
            mul_nonneg (by positivity) (abs_nonneg x)
          nlinarith [abs_nonneg y]

/-- With fuel exceeding the modulus, the `mod_inverse` loop of coprime
inputs always returns a value (the source never hits `ZeroDivisionError`
there, and the fuel is a pure modelling artefact). -/
theorem modInvLoop_total :
    ∀ (fuel a m : Nat) (x y : Int), m < fuel → 1 ≤ a → Nat.gcd a m = 1 →
      ∃ r, modInvLoop fuel a m x y = some r := by
  intro fuel
  induction fuel with
  | zero => intro a m x y h; omega
  | succ f ih =>
    intro a m x y hf ha hg
    by_cases ha1 : a ≤ 1
    · exact ⟨x, by simp [modInvLoop, ha1]⟩
    · by_cases hm0 : m = 0
      · subst hm0
        simp [Nat.gcd_zero_right] at hg
        omega
      · have hlt : a % m < f := by
          have := Nat.mod_lt a (Nat.pos_of_ne_zero hm0)
          omega
        have hg' : Nat.gcd m (a % m) = 1 := by
          rw [Nat.gcd_comm m (a % m), ← Nat.gcd_rec, Nat.gcd_comm]
          exact hg
        obtain ⟨r, hr⟩ := ih m (a % m) y (x - ↑(a / m) * y)
          hlt (by omega) hg'
        exact ⟨r, by simp only [modInvLoop, if_neg ha1, if_neg hm0]; exact hr⟩

/-- Full correctness of `mod_inverse` on coprime inputs with modulus at
least 2: it returns a canonical representative of the inverse. -/
theorem mod_inverse_spec (a m : Nat) (ha : 1 ≤ a) (hm : 2 ≤ m) (hg : Nat.gcd a m = 1) :
    ∃ x, mod_inverse a m = some x ∧ 0 ≤ x ∧ x < (m : Int) ∧
      ((a : Int) * x) % (m : Int) = 1 := by
  obtain ⟨r, hr⟩ := modInvLoop_total (m + 2) a m 1 0 (by omega) ha hg
  have hM2 : (2 : Int) ≤ (m : Int) := by exact_mod_cast hm
  have hspec := modInvLoop_spec (m + 2) a m 1 0 r a m hm ha
    (by simp)
    (by simpa using (Int.modEq_zero_iff_dvd.mpr dvd_rfl :
      (m : Int) ≡ 0 [ZMOD (m : Int)]).symm)
    (by simp)
    (by simp)
    (by omega)
    hr
  obtain ⟨hmod, habs⟩ := hspec
  have hm1 : m ≠ 1 := by omega
  have hout : mod_inverse a m = some (if r < 0 then r + (m : Int) else r) := by
    simp only [mod_inverse, if_neg hm1, hr, Option.map_some']
  have habs' : -(m : Int) < r ∧ r < (m : Int) := abs_lt.mp habs
  have hone : (1 : Int) % (m : Int) = 1 := Int.emod_eq_of_lt (by norm_num) (by linarith)
  have hmr : ((a : Int) * r) % (m : Int) = 1 % (m : Int) := hmod
  by_cases hneg : r < 0
  · refine ⟨r + (m : Int), by rw [hout, if_pos hneg], by linarith, by linarith, ?_⟩
    calc ((a : Int) * (r + (m : Int))) % (m : Int)
        = ((a : Int) * r + (m : Int) * (a : Int)) % (m : Int) := by ring_nf
      _ = ((a : Int) * r) % (m : Int) := by rw [Int.add_mul_emod_self_left]
      _ = 1 % (m : Int) := hmr
      _ = 1 := hone
  · refine ⟨r, by rw [hout, if_neg hneg], by omega, habs'.2, ?_⟩
    rw [hmr, hone]

/-! ## Behaviour of the cipher layer -/

theorem encryptCore_ok (n e : Nat) :
    ∀ pt : List Nat, (∀ c ∈ pt, c < n) →
      encryptCore n e pt = .ok (pt.map fun c => powMod c e n) := by
  intro pt
  induction pt with
  | nil => intro _; simp [encryptCore]
  | cons c rest ih =>
    intro h
    have hc : c < n := h c (by simp)
    have hrest := ih fun x hx => h x (List.mem_cons_of_mem _ hx)
    simp only [encryptCore, if_neg (by omega : ¬ n ≤ c), hrest, List.map_cons]

theorem encryptCore_err (n e : Nat) :
    ∀ pt : List Nat, (∃ c ∈ pt, n ≤ c) →
      ∃ c, c ∈ pt ∧ n ≤ c ∧ encryptCore n e pt = .error (c, n) := by
  intro pt
  induction pt with
  | nil => intro h; simp at h
  | cons c rest ih =>
    intro h
    by_cases hc : n ≤ c
    · exact ⟨c, by simp, hc, by simp [encryptCore, if_pos hc]⟩
    · obtain ⟨c1, hmem, hle, heq⟩ := ih (by
        rcases h with ⟨c1, hm, hle⟩
        rcases List.mem_cons.mp hm with rfl | hm'
        · omega
        · exact ⟨c1, hm', hle⟩)
      exact ⟨c1, List.mem_cons_of_mem _ hmem, hle,
        by simp only [encryptCore, if_neg hc, heq]⟩

theorem decrypt_ok (n d : Nat) (hn : n ≠ 0) :
    ∀ ct : List Nat, (∀ c ∈ ct, powMod c d n < 1114112) →
      decrypt (n, d) ct = some (ct.map fun c => powMod c d n) := by
  intro ct
  induction ct with
  | nil => intro _; simp [decrypt]
  | cons c rest ih =>
    intro h
    have h1 : powMod c d n < 1114112 := h c (by simp)
    have hrest := ih fun x hx => h x (List.mem_cons_of_mem _ hx)
    simp [decrypt, decryptChar, pyChr, hn, h1, hrest]

/-! ## Behaviour of the generators -/

theorem is_prime_true_two_le (n k : Nat) (g : Nat → Nat) (i : Nat)
    (h : (is_prime n k g i).1 = true) : 2 ≤ n := by
  by_contra hn
  have h1 : n ≤ 1 ∨ n = 4 := Or.inl (by omega)
  simp [is_prime, if_pos h1] at h

theorem generate_prime_some (g : Nat → Nat) (bits : Nat) :
    ∀ fuel i p j, generate_prime g bits fuel i = some (p, j) →
      ∃ i2, p = (g i2 % 2 ^ bits) ||| ((1 <<< (bits - 1)) ||| 1) ∧
        is_prime p 5 g (i2 + 1) = (true, j) := by
  intro fuel
  induction fuel with
  | zero => intro i p j h; simp [generate_prime] at h
  | succ f ih =>
    intro i p j h
    simp only [generate_prime] at h
    by_cases hv : (is_prime ((g i % 2 ^ bits) ||| ((1 <<< (bits - 1)) ||| 1)) 5 g (i + 1)).1
    · rw [if_pos hv] at h
      simp only [Option.some.injEq, Prod.mk.injEq] at h
      obtain ⟨hp, hj⟩ := h
      subst hp
      exact ⟨i, rfl, by rw [← hj]; exact Prod.ext hv rfl⟩
    · rw [if_neg hv] at h
      exact ih _ _ _ h

theorem generate_prime_three_le (g : Nat → Nat) (bits fuel i p j : Nat)
    (h : generate_prime g bits fuel i = some (p, j)) : 3 ≤ p ∧ p % 2 = 1 := by
  obtain ⟨i2, hshape, hpass⟩ := generate_prime_some g bits fuel i p j h
  have h2 : 2 ≤ p := is_prime_true_two_le p 5 g (i2 + 1) (by rw [hpass])
  have hbit : p.testBit 0 = true := by
    rw [hshape]
    simp [Nat.testBit_or]
  rw [Nat.testBit_zero] at hbit
  have hodd : p % 2 = 1 := by
    simpa using hbit
  exact ⟨by omega, hodd⟩

theorem qLoop_some (g : Nat → Nat) (pfuel bits p : Nat) :
    ∀ fuel i q j, qLoop g pfuel bits p fuel i = some (q, j) →
      q ≠ p ∧ ∃ i2, generate_prime g bits pfuel i2 = some (q, j) := by
  intro fuel
  induction fuel with
  | zero => intro i q j h; simp [qLoop] at h
  | succ f ih =>
    intro i q j h
    simp only [qLoop] at h
    cases hgp : generate_prime g bits pfuel i with
    | none => rw [hgp] at h; simp at h
    | some qj =>
      obtain ⟨q0, j0⟩ := qj
      rw [hgp] at h
      dsimp only at h
      by_cases he : q0 = p
      · rw [if_pos he] at h
        exact ih _ _ _ h
      · rw [if_neg he] at h
        simp only [Option.some.injEq, Prod.mk.injEq] at h
        obtain ⟨rfl, rfl⟩ := h
        exact ⟨he, ⟨i, hgp⟩⟩

theorem eLoop_some (g : Nat → Nat) (phi : Nat) :
    ∀ fuel e i e2 i2, 2 ≤ e → eLoop g phi fuel e i = some (e2, i2) →
      2 ≤ e2 ∧ Nat.gcd e2 phi = 1 := by
  intro fuel
  induction fuel with
  | zero =>
    intro e i e2 i2 he h
    simp only [eLoop] at h
    by_cases hg : gcd e phi = 1
    · rw [if_pos hg] at h
      simp only [Option.some.injEq, Prod.mk.injEq] at h
      obtain ⟨rfl, rfl⟩ := h
      exact ⟨he, by rw [← gcd_eq]; exact hg⟩
    · rw [if_neg hg] at h; simp at h
  | succ f ih =>
    intro e i e2 i2 he h
    simp only [eLoop] at h
    by_cases hg : gcd e phi = 1
    · rw [if_pos hg] at h
      simp only [Option.some.injEq, Prod.mk.injEq] at h
      obtain ⟨rfl, rfl⟩ := h
      exact ⟨he, by rw [← gcd_eq]; exact hg⟩
    · rw [if_neg hg] at h
      exact ih _ _ _ _ (by omega) h

/-! ## RSA round-trip arithmetic -/

theorem pow_modEq_self_of_prime (p : Nat) (hp : p.Prime) (k : Nat) (hk : 1 ≤ k)
    (hd : (p - 1) ∣ (k - 1)) (m : Nat) : m ^ k ≡ m [MOD p] := by
  haveI : Fact p.Prime := ⟨hp⟩
  have hz : ((m ^ k : Nat) : ZMod p) = ((m : Nat) : ZMod p) := by
    push_cast
    obtain ⟨t, ht⟩ := hd
    have hkt : k = (p - 1) * t + 1 := by
      have h2 := hp.two_le
      omega
    by_cases hm0 : (m : ZMod p) = 0
    · rw [hm0, zero_pow (by omega : k ≠ 0)]
    · rw [hkt, pow_succ, pow_mul, ZMod.pow_card_sub_one_eq_one hm0, one_pow, one_mul]
  exact (ZMod.natCast_eq_natCast_iff _ _ _).mp hz

theorem rsa_pow_roundtrip (p q k : Nat) (hp : p.Prime) (hq : q.Prime) (hne : p ≠ q)
    (hk : 1 ≤ k) (hd : (p - 1) * (q - 1) ∣ (k - 1)) (m : Nat) :
    m ^ k ≡ m [MOD p * q] := by
  have hco : Nat.Coprime p q := (Nat.coprime_primes hp hq).mpr hne
  refine (Nat.modEq_and_modEq_iff_modEq_mul hco).mp ⟨?_, ?_⟩
  · exact pow_modEq_self_of_prime p hp k hk
      (dvd_trans (dvd_mul_right (p - 1) (q - 1)) hd) m
  · exact pow_modEq_self_of_prime q hq k hk
      (dvd_trans (dvd_mul_left (q - 1) (p - 1)) hd) m

/-! ## Structure of generated keypairs -/

theorem generateKeypairFull_spec (bits fuel : Nat) (g : Nat → Nat) (p q e : Nat) (d : Int)
    (h : generateKeypairFull bits fuel g = some (p, q, e, d)) :
    3 ≤ p ∧ 3 ≤ q ∧ p ≠ q ∧ 2 ≤ e ∧
      Nat.gcd e ((p - 1) * (q - 1)) = 1 ∧
      0 ≤ d ∧ d < (((p - 1) * (q - 1) : Nat) : Int) ∧
      ((e : Int) * d) % (((p - 1) * (q - 1) : Nat) : Int) = 1 := by
  unfold generateKeypairFull at h
  rcases hps : generate_prime g (bits / 2) fuel 0 with _ | ⟨p1, i1⟩
  · rw [hps] at h; exact absurd h (by simp)
  rw [hps] at h
  dsimp only at h
  rcases hqs : qLoop g fuel (bits / 2) p1 fuel i1 with _ | ⟨q1, i2⟩
  · rw [hqs] at h; exact absurd h (by simp)
  rw [hqs] at h
  dsimp only at h
  rcases hes : eLoop g ((p1 - 1) * (q1 - 1)) fuel 65537 i2 with _ | ⟨e1, i3⟩
  · rw [hes] at h; exact absurd h (by simp)
  rw [hes] at h
  dsimp only at h
  rcases hds : mod_inverse e1 ((p1 - 1) * (q1 - 1)) with _ | d1
  · rw [hds] at h; exact absurd h (by simp)
  rw [hds] at h
  simp only [Option.some.injEq, Prod.mk.injEq] at h
  obtain ⟨rfl, rfl, rfl, rfl⟩ := h
  obtain ⟨hp3, hpodd⟩ := generate_prime_three_le g (bits / 2) fuel 0 p1 i1 hps
  obtain ⟨hqp, i4, hq⟩ := qLoop_some g fuel (bits / 2) p1 fuel i1 q1 i2 hqs
  obtain ⟨hq3, hqodd⟩ := generate_prime_three_le g (bits / 2) fuel i4 q1 i2 hq
  obtain ⟨he2, hgcd⟩ := eLoop_some g ((p1 - 1) * (q1 - 1)) fuel 65537 i2 e1 i3
    (by omega) hes
  have hphi : 2 ≤ (p1 - 1) * (q1 - 1) := by
    have := Nat.mul_le_mul (by omega : 2 ≤ p1 - 1) (by omega : 2 ≤ q1 - 1)
    omega
  obtain ⟨x, hx, hx0, hxlt, hxmod⟩ :=
    mod_inverse_spec e1 ((p1 - 1) * (q1 - 1)) (by omega) hphi hgcd
  have hxd : x = d1 := by
    rw [hds] at hx
    exact (Option.some.inj hx).symm
  subst hxd
  exact ⟨hp3, hq3, Ne.symm hqp, he2, hgcd, hx0, hxlt, hxmod⟩

/-- Round-trip correctness for any generated keypair whose two generated
values are genuinely prime (rather than merely accepted by the
probabilistic test). -/
theorem keypair_roundtrip (bits fuel : Nat) (g : Nat → Nat) (p q e : Nat) (d : Int)
    (h : generateKeypairFull bits fuel g = some (p, q, e, d))
    (hp : p.Prime) (hq : q.Prime) (pt : List Nat)
    (hlt : ∀ m ∈ pt, m < p * q) (hchar : ∀ m ∈ pt, m < 1114112) :
    decrypt (p * q, d.toNat) (encrypt (p * q, e) pt) = some pt := by
  obtain ⟨hp3, hq3, hne, he2, hgcd, hd0, hdlt, hdmod⟩ :=
    generateKeypairFull_spec bits fuel g p q e d h
  have hdcast : ((d.toNat : Nat) : Int) = d := Int.toNat_of_nonneg hd0
  have hmod : (e * d.toNat) % ((p - 1) * (q - 1)) = 1 := by
    have h2 : (((e * d.toNat) % ((p - 1) * (q - 1)) : Nat) : Int) = 1 := by
      push_cast
      rw [hdcast]
      exact hdmod
    exact_mod_cast h2
  have hk1 : 1 ≤ e * d.toNat := by
    by_contra hc
    have hz : e * d.toNat = 0 := by omega
    rw [hz, Nat.zero_mod] at hmod
    exact absurd hmod (by omega)
  have hdvd : (p - 1) * (q - 1) ∣ e * d.toNat - 1 := by
    have hdm := Nat.div_add_mod (e * d.toNat) ((p - 1) * (q - 1))
    exact ⟨(e * d.toNat) / ((p - 1) * (q - 1)), by omega⟩
  have hn9 : 9 ≤ p * q := Nat.mul_le_mul hp3 hq3
  have hroundtrip : ∀ m ∈ pt, powMod (powMod m e (p * q)) d.toNat (p * q) = m := by
    intro m hm
    rw [powMod_eq, powMod_eq, ← Nat.pow_mod, ← pow_mul]
    have hme : m ^ (e * d.toNat) % (p * q) = m % (p * q) :=
      rsa_pow_roundtrip p q (e * d.toNat) hp hq hne hk1 hdvd m
    rw [hme, Nat.mod_eq_of_lt (hlt m hm)]
  have henc : encrypt (p * q, e) pt = pt.map fun c => powMod c e (p * q) := by
    simp only [encrypt]
    rw [encryptCore_ok (p * q) e pt hlt]
  rw [henc]
  have hbound : ∀ c ∈ pt.map fun c => powMod c e (p * q),
      powMod c d.toNat (p * q) < 1114112 := by
    intro c hc
    obtain ⟨m, hm, rfl⟩ := List.mem_map.mp hc
    rw [hroundtrip m hm]
    exact hchar m hm
  rw [decrypt_ok (p * q) d.toNat (by omega) _ hbound, List.map_map]
  have hid : pt.map ((fun c => powMod c d.toNat (p * q)) ∘ fun c => powMod c e (p * q))
      = pt.map id := List.map_congr_left fun a ha => hroundtrip a ha
  rw [hid, List.map_id]

/-! ## The specification claims -/

/-- C1 (counterexample): the round-trip property fails as stated for
some keypairs actually returned by `generate_keypair`.  On the tape
`tapeBad`, `generate_keypair 22` accepts the base-2 strong pseudoprime
`p = 2047 = 23 * 89` (all five Miller-Rabin witnesses are drawn as 2) and
the prime `q = 1039`, returning the keypair
`((2126833, 65537), (2126833, 1044845))`; the one-character plaintext
`[3]` has code point `3 < n`, yet decrypting its encryption does not
give back `[3]` (the decryption residue is not even a valid code point,
so the Python reference raises `ValueError`, modelled as `none`). -/
theorem C1_roundtrip_counterexample :
    generate_keypair 22 2 tapeBad = some ((2126833, 65537), (2126833, 1044845)) ∧
    (3 : Nat) < 2126833 ∧ (3 : Nat) < 1114112 ∧
    decrypt (2126833, 1044845) (encrypt (2126833, 65537) [3]) ≠ some [3] := by
  refine ⟨by decide, by decide, by decide, by decide⟩

/-- C1 (amended): for every keypair returned by `generate_keypair` whose
two underlying generated values `p`, `q` are genuinely prime — the random
primality test makes this overwhelmingly likely but cannot guarantee
it — and every plaintext string all of whose code points are below the
modulus `n = p * q`, decrypting the encryption returns the original
plaintext. -/
theorem C1_roundtrip (bits fuel : Nat) (g : Nat → Nat) (p q e : Nat) (d : Int)
    (pt : List Nat)
    (h : generateKeypairFull bits fuel g = some (p, q, e, d))
    (hp : p.Prime) (hq : q.Prime)
    (hlt : ∀ m ∈ pt, m < p * q) (hchar : ∀ m ∈ pt, m < 1114112) :
    generate_keypair bits fuel g = some ((p * q, e), (p * q, d)) ∧
    decrypt (p * q, d.toNat) (encrypt (p * q, e) pt) = some pt := by
  constructor
  · simp [generate_keypair, h]
  · exact keypair_roundtrip bits fuel g p q e d h hp hq pt hlt hchar

/-- C1 (witness): on the tape `tapeSmall`, `generate_keypair 6` draws the
genuine primes 5 and 7 and the plaintext `[2, 33]` round-trips. -/
theorem C1_roundtrip_witness :
    generate_keypair 6 2 tapeSmall = some ((35, 65537), (35, 17)) ∧
    decrypt (35, (17 : Int).toNat) (encrypt (35, 65537) [2, 33]) = some [2, 33] :=
  C1_roundtrip 6 2 tapeSmall 5 7 65537 17 [2, 33] (by decide)
    (by norm_num) (by norm_num) (by decide) (by decide)

/-- C2 (confirmed): every keypair returned by `generate_keypair` is
`((n, e), (n, d))` with `n = p * q` for the two generated values `p ≠ q`,
`gcd(e, (p-1)*(q-1)) = 1`, and `(e * d) mod ((p-1)*(q-1)) = 1`. -/
theorem C2_keypair_consistency (bits fuel : Nat) (g : Nat → Nat) (p q e : Nat) (d : Int)
    (h : generateKeypairFull bits fuel g = some (p, q, e, d)) :
    generate_keypair bits fuel g = some ((p * q, e), (p * q, d)) ∧
    p ≠ q ∧
    Nat.gcd e ((p - 1) * (q - 1)) = 1 ∧
    ((e : Int) * d) % (((p - 1) * (q - 1) : Nat) : Int) = 1 := by
  obtain ⟨_, _, hne, _, hgcd, _, _, hmod⟩ :=
    generateKeypairFull_spec bits fuel g p q e d h
  exact ⟨by simp [generate_keypair, h], hne, hgcd, hmod⟩

/-- C2 (witness): concrete keypair generated on `tapeSmall`. -/
theorem C2_keypair_consistency_witness :
    generate_keypair 6 2 tapeSmall = some ((35, 65537), (35, 17)) ∧
    (5 : Nat) ≠ 7 ∧
    Nat.gcd 65537 ((5 - 1) * (7 - 1)) = 1 ∧
    ((65537 : Int) * 17) % ((((5 : Nat) - 1) * (7 - 1) : Nat) : Int) = 1 :=
  C2_keypair_consistency 6 2 tapeSmall 5 7 65537 17 (by decide)

/-- C3 (confirmed): whenever some plaintext code point reaches the
modulus, `encrypt` returns the empty list — no partial ciphertext
survives, regardless of how many earlier characters were encryptable —
and signals the character-too-large error for the first offending
character. -/
theorem C3_boundary_rejection (n e : Nat) (pt : List Nat) (h : ∃ c ∈ pt, n ≤ c) :
    encrypt (n, e) pt = [] ∧
    ∃ c, c ∈ pt ∧ n ≤ c ∧ encryptCore n e pt = .error (c, n) ∧
      encryptEvents (n, e) pt = [UIEvent.errorCharTooLarge c n] := by
  obtain ⟨c, hm, hle, herr⟩ := encryptCore_err n e pt h
  exact ⟨by simp [encrypt, herr], c, hm, hle, herr, by simp [encryptEvents, herr]⟩

/-- C3 (witness): with key `(1, 1)` the plaintext `[0, 1]` has an
encryptable first character but the call still returns `[]`. -/
theorem C3_boundary_rejection_witness :
    encrypt (1, 1) [0, 1] = [] ∧
    ∃ c, c ∈ [0, 1] ∧ 1 ≤ c ∧ encryptCore 1 1 [0, 1] = .error (c, 1) ∧
      encryptEvents (1, 1) [0, 1] = [UIEvent.errorCharTooLarge c 1] :=
  C3_boundary_rejection 1 1 [0, 1] ⟨1, by decide, by decide⟩

/-- C4 (confirmed): every value returned by `generate_prime bits` (for
positive `bits`) is odd, has its top bit (position `bits - 1`) set,
fits in `bits` bits, and passed `is_prime` with its default 5 rounds at
the tape position where it was drawn. -/
theorem C4_generate_prime_valid (g : Nat → Nat) (bits fuel i p j : Nat) (hb : 1 ≤ bits)
    (h : generate_prime g bits fuel i = some (p, j)) :
    p % 2 = 1 ∧ p.testBit (bits - 1) = true ∧ p < 2 ^ bits ∧
      ∃ i2, (is_prime p 5 g i2).1 = true := by
  obtain ⟨i2, hshape, hpass⟩ := generate_prime_some g bits fuel i p j h
  obtain ⟨h3, hodd⟩ := generate_prime_three_le g bits fuel i p j h
  refine ⟨hodd, ?_, ?_, ⟨i2 + 1, by rw [hpass]⟩⟩
  · have ht : (1 <<< (bits - 1)).testBit (bits - 1) = true := by
      rw [Nat.shiftLeft_eq, one_mul]
      exact Nat.testBit_two_pow_self
    rw [hshape]
    simp [Nat.testBit_or, ht]
  · have h1 : g i2 % 2 ^ bits < 2 ^ bits := Nat.mod_lt _ (by positivity)
    have h2 : 1 <<< (bits - 1) < 2 ^ bits := by
      rw [Nat.shiftLeft_eq, one_mul]
      exact Nat.pow_lt_pow_right (by omega) (by omega)
    have h4 : 1 < 2 ^ bits := Nat.one_lt_two_pow (by omega)
    rw [hshape]
    exact Nat.or_lt_two_pow h1 (Nat.or_lt_two_pow h2 h4)

/-- C4 (witness): on the constant tape 3, `generate_prime 2` returns 3:
odd, top bit of 2 set, below `2 ^ 2`, and accepted by `is_prime`. -/
theorem C4_generate_prime_valid_witness :
    (3 : Nat) % 2 = 1 ∧ (3 : Nat).testBit 1 = true ∧ (3 : Nat) < 2 ^ 2 ∧
      ∃ i2, (is_prime 3 5 (fun _ => 3) i2).1 = true :=
  C4_generate_prime_valid (fun _ => 3) 2 1 0 3 1 (by decide) (by decide)

/-- C5 (confirmed): the deterministic short-circuits of `is_prime`:
`n ≤ 1` and `n = 4` are rejected, 2 and 3 accepted, and even `n ≠ 2`
rejected — for every round count and independently of the witness
tape. -/
theorem C5_short_circuits (g : Nat → Nat) (i k n : Nat) (_hk : 0 < k) :
    ((n ≤ 1 ∨ n = 4) → is_prime n k g i = (false, i)) ∧
    ((n = 2 ∨ n = 3) → is_prime n k g i = (true, i)) ∧
    (n % 2 = 0 → n ≠ 2 → is_prime n k g i = (false, i)) := by
  refine ⟨fun h => ?_, fun h => ?_, fun he hn2 => ?_⟩
  · unfold is_prime
    rw [if_pos h]
  · have h1 : ¬(n ≤ 1 ∨ n = 4) := by omega
    have h2 : n ≤ 3 := by omega
    unfold is_prime
    rw [if_neg h1, if_pos h2]
  · by_cases h4 : n ≤ 1 ∨ n = 4
    · unfold is_prime
      rw [if_pos h4]
    · have h1 : ¬(n ≤ 3) := by omega
      unfold is_prime
      rw [if_neg h4, if_neg h1, if_pos he]

/-- C5 (witness): the short-circuits evaluated at 4, 3 and 6. -/
theorem C5_short_circuits_witness :
    is_prime 4 5 (fun _ => 0) 0 = (false, 0) ∧
    is_prime 3 5 (fun _ => 0) 0 = (true, 0) ∧
    is_prime 6 5 (fun _ => 0) 0 = (false, 0) :=
  ⟨(C5_short_circuits (fun _ => 0) 0 5 4 (by decide)).1 (by decide),
   (C5_short_circuits (fun _ => 0) 0 5 3 (by decide)).2.1 (by decide),
   (C5_short_circuits (fun _ => 0) 0 5 6 (by decide)).2.2 (by decide) (by decide)⟩

/-- C6 (counterexample): the coprime pair `(a, m) = (1, 1)` is a pair of
positive integers with `gcd(a, m) = 1`, yet
`(a * mod_inverse(a, m)) mod m = 0 ≠ 1` — every residue modulo 1 is 0,
so the inverse identity cannot hold at `m = 1`, which the claim itself
includes via its `m = 1` clause. -/
theorem C6_mod_inverse_counterexample :
    Nat.gcd 1 1 = 1 ∧ mod_inverse 1 1 = some 0 ∧
    ((1 : Int) * 0) % (1 : Int) ≠ 1 := by
  refine ⟨by decide, by decide, by decide⟩

/-- C6 (amended): for coprime positive `(a, m)` with `m ≥ 2`,
`(a * mod_inverse(a, m)) mod m = 1`; `mod_inverse(a, 1)` returns 0 for
any `a`; and `mod_inverse(3, 11) = 4`. -/
theorem C6_mod_inverse_correct (a m : Nat) (ha : 0 < a) (hm : 2 ≤ m)
    (hg : Nat.gcd a m = 1) :
    (∃ x, mod_inverse a m = some x ∧ ((a : Int) * x) % ((m : Nat) : Int) = 1) ∧
    mod_inverse a 1 = some 0 ∧
    mod_inverse 3 11 = some 4 := by
  obtain ⟨x, hx, _, _, hmod⟩ := mod_inverse_spec a m ha hm hg
  exact ⟨⟨x, hx, hmod⟩, by simp [mod_inverse], by decide⟩

/-- C6 (witness): the inverse identity instantiated at `(3, 11)`. -/
theorem C6_mod_inverse_correct_witness :
    (∃ x, mod_inverse 3 11 = some x ∧ ((3 : Int) * x) % (((11 : Nat)) : Int) = 1) ∧
    mod_inverse 3 1 = some 0 ∧
    mod_inverse 3 11 = some 4 :=
  C6_mod_inverse_correct 3 11 (by decide) (by decide) (by decide)

/-- C7 (counterexample): `decrypt` can fail.  For the private key
`(1114113, 1)` and the single-element ciphertext `[1114112]`, the residue
`pow(1114112, 1, 1114113) = 1114112` is not a valid Unicode code point,
so the reference raises `ValueError` (modelled as `none`) instead of
returning a one-character string. -/
theorem C7_decrypt_counterexample :
    decrypt (1114113, 1) [1114112] = none := by decide

/-- C7 (amended): `decrypt` performs no bounds checking of its own and
returns a same-length string for every ciphertext, provided the modulus
is nonzero and every residue `pow(c, d, n)` lands on a valid code point
(below 1114112); outside that range Python's `chr` raises. -/
theorem C7_decrypt_total (n d : Nat) (ct : List Nat) (hn : n ≠ 0)
    (h : ∀ c ∈ ct, powMod c d n < 1114112) :
    decrypt (n, d) ct = some (ct.map fun c => powMod c d n) ∧
    (ct.map fun c => powMod c d n).length = ct.length :=
  ⟨decrypt_ok n d hn ct h, by simp⟩

/-- C7 (witness): decrypting the malformed ciphertext `[7]` (7 is not a
residue any encryption could produce modulo 5) still yields the
one-character string `[2]`. -/
theorem C7_decrypt_total_witness :
    decrypt (5, 1) [7] = some [2] ∧ ([2] : List Nat).length = ([7] : List Nat).length :=
  C7_decrypt_total 5 1 [7] (by decide) (by decide)

/-- C8 (confirmed): the cipher layer is pure — both operations are
deterministic functions of their arguments by construction of this
embedding — and its only effect is the defined failure signal: the
effect trace of `encrypt` is empty except when a character reaches the
modulus (in which case the single error event accompanies the empty
result), and `decrypt` (whose body contains no UI call) has an empty
trace always. -/
theorem C8_purity (n e n2 d : Nat) (pt ct : List Nat) :
    (encryptEvents (n, e) pt = [] ∨
      ∃ c, c ∈ pt ∧ n ≤ c ∧
        encryptEvents (n, e) pt = [UIEvent.errorCharTooLarge c n] ∧
        encrypt (n, e) pt = []) ∧
    decryptEvents (n2, d) ct = [] := by
  refine ⟨?_, rfl⟩
  by_cases h : ∃ c ∈ pt, n ≤ c
  · obtain ⟨c, hm, hle, herr⟩ := encryptCore_err n e pt h
    exact Or.inr ⟨c, hm, hle, by simp [encryptEvents, herr], by simp [encrypt, herr]⟩
  · push_neg at h
    exact Or.inl (by simp [encryptEvents, encryptCore_ok n e pt h])

/-- C9 (confirmed): `encrypt` returns `[]` on the empty string — the very
value it also returns on the character-too-large failure, so the two are
indistinguishable from the result alone. -/
theorem C9_empty_ambiguity (n e : Nat) :
    encrypt (n, e) [] = [] ∧
    ∀ pt, (∃ c ∈ pt, n ≤ c) → encrypt (n, e) pt = encrypt (n, e) [] := by
  refine ⟨rfl, fun pt h => ?_⟩
  obtain ⟨c, hm, hle, herr⟩ := encryptCore_err n e pt h
  simp [encrypt, encryptCore, herr]

/-- C9 (witness): with key `(1, 1)`, the failing call on `[1]` and the
successful call on `""` return the same `[]`. -/
theorem C9_empty_ambiguity_witness :
    encrypt (1, 1) [] = [] ∧ encrypt (1, 1) [1] = encrypt (1, 1) [] :=
  ⟨(C9_empty_ambiguity 1 1).1,
   (C9_empty_ambiguity 1 1).2 [1] ⟨1, by decide, by decide⟩⟩

/-- C10 (confirmed): for coprime positive `(a, m)` the value returned by
`mod_inverse` lies in `[0, m)`: the single add-the-modulus normalisation
step always lands in canonical range. -/
theorem C10_inverse_range (a m : Nat) (ha : 0 < a) (hm : 0 < m)
    (hg : Nat.gcd a m = 1) :
    ∃ x, mod_inverse a m = some x ∧ 0 ≤ x ∧ x < ((m : Nat) : Int) := by
  by_cases hm1 : m = 1
  · subst hm1
    exact ⟨0, by simp [mod_inverse], le_refl 0, by norm_num⟩
  · obtain ⟨x, hx, h0, hlt, _⟩ := mod_inverse_spec a m ha (by omega) hg
    exact ⟨x, hx, h0, hlt⟩

/-- C10 (witness): the range property instantiated at `(3, 11)`. -/
theorem C10_inverse_range_witness :
    ∃ x, mod_inverse 3 11 = some x ∧ 0 ≤ x ∧ x < (((11 : Nat)) : Int) :=
  C10_inverse_range 3 11 (by decide) (by decide) (by decide)

end App
